import Mathlib

/-!
Verification of the PoleNet `ss_calc` calculator (src/calculator/__init__.py).

The force-aggregation engine (`get_force_tensor`) is embedded as pure
functions over exact rationals: a configuration of `N` atoms has a neighbor
table `nbr : Fin N → Fin C → Fin N` (`C = num_cutoff` slots per atom; every
slot holds an atom index, matching the tensor shapes fed to `tf.gather`) and
a per-slot pairwise force tensor `Fij : Fin N → Fin C → Vec3`.
Floating-point arithmetic is modelled by exact `ℚ` arithmetic, so
"equal within tolerance" becomes exact equality.
-/

namespace PoleNet

/-- A 3-vector of (exact) coordinates, modelling a row of a `(…, 3)` tensor. -/
abbrev Vec3 : Type := ℚ × ℚ × ℚ

variable {N C : ℕ}

/-- Self term of the force: `f_self = -tf.reduce_sum(F_ij, axis=1)`,
i.e. `f_self[i] = -Σ_k F_ij[i,k]`. -/
def f_self (Fij : Fin N → Fin C → Vec3) (i : Fin N) : Vec3 :=
  -(∑ k, Fij i k)

/-- Strategy A mask (`big_sys = True` branch): the boolean tensor
`a_bool[i,k,k2] = (Neigh_ind[Neigh_ind[i,k], k2] == i)` built by
`tf.equal(tf.gather(Neigh_ind, tf.reshape(Neigh_ind,[-1])), range)`. -/
def a_bool_A (nbr : Fin N → Fin C → Fin N) (i : Fin N) (k k2 : Fin C) : Bool :=
  decide (nbr (nbr i k) k2 = i)

/-- Strategy A cross term (`big_sys = True` branch): the gathered tensor
`G[i,k,k2,:] = F_ij[Neigh_ind[i,k], k2, :]` is masked by `a_bool` with
`tf.ragged.boolean_mask` and reduced over `k2` (axis 2) then `k` (axis 1);
a masked reduction is the sum with masked-out entries replaced by `0`. -/
def f_cross_A (nbr : Fin N → Fin C → Fin N) (Fij : Fin N → Fin C → Vec3)
    (i : Fin N) : Vec3 :=
  ∑ k, ∑ k2, if a_bool_A nbr i k k2 = true then Fij (nbr i k) k2 else 0

/-- Strategy B mask (`big_sys = False` branch): the boolean tensor
`a_bool[i,j,k2] = (Neigh_ind[j,k2] == i)` built from the tiled neighbor
table compared against `tf.range(len_atoms)`. -/
def a_bool_B (nbr : Fin N → Fin C → Fin N) (i j : Fin N) (k2 : Fin C) : Bool :=
  decide (nbr j k2 = i)

/-- Strategy B cross term (`big_sys = False` branch): the tiled tensor
`G[i,j,k2,:] = F_ij[j,k2,:]` is masked by `a_bool` and reduced over `k2`
(axis 2) then `j` (axis 1). -/
def f_cross_B (nbr : Fin N → Fin C → Fin N) (Fij : Fin N → Fin C → Vec3)
    (i : Fin N) : Vec3 :=
  ∑ j, ∑ k2, if a_bool_B nbr i j k2 = true then Fij j k2 else 0

/-- `get_force_tensor`: returns `f_self + f_cross`, with the cross term
computed by Strategy A when `big_sys` and by Strategy B otherwise. -/
def get_force_tensor (big_sys : Bool) (nbr : Fin N → Fin C → Fin N)
    (Fij : Fin N → Fin C → Vec3) (i : Fin N) : Vec3 :=
  f_self Fij i +
    (if big_sys then f_cross_A nbr Fij i else f_cross_B nbr Fij i)

/-- No atom's neighbor row contains the same target index in two slots. -/
def NoDupRows (nbr : Fin N → Fin C → Fin N) : Prop :=
  ∀ i : Fin N, Function.Injective (nbr i)

/-- Every neighbor relation is reciprocal: whenever some slot of atom `j`
lists atom `i`, some slot of atom `i` lists atom `j`. -/
def Reciprocal (nbr : Fin N → Fin C → Fin N) : Prop :=
  ∀ i j : Fin N, (∃ k, nbr j k = i) → ∃ k, nbr i k = j

instance (nbr : Fin N → Fin C → Fin N) : Decidable (NoDupRows nbr) :=
  inferInstanceAs (Decidable (∀ i, Function.Injective (nbr i)))

instance (nbr : Fin N → Fin C → Fin N) : Decidable (Reciprocal nbr) :=
  inferInstanceAs (Decidable (∀ i j, (∃ k, nbr j k = i) → ∃ k, nbr i k = j))

/-- If no row of the neighbor table has duplicates and every neighbor
relation is reciprocal, the two cross-term strategies agree exactly:
Strategy A's sum over `i`'s row hits every atom `j` whose row lists `i`
exactly once, and atoms outside `i`'s row contribute nothing. -/
theorem cross_eq_of_nodup_recip (nbr : Fin N → Fin C → Fin N)
    (Fij : Fin N → Fin C → Vec3) (h1 : NoDupRows nbr) (h2 : Reciprocal nbr)
    (i : Fin N) : f_cross_A nbr Fij i = f_cross_B nbr Fij i := by
  have h0 : ∀ j, j ∉ Finset.univ.image (nbr i) →
      (∑ k2, if a_bool_B nbr i j k2 = true then Fij j k2 else 0) = 0 := by
    intro j hj
    refine Finset.sum_eq_zero fun k2 _ => if_neg ?_
    intro hk2
    simp only [a_bool_B, decide_eq_true_eq] at hk2
    obtain ⟨k, hk⟩ := h2 i j ⟨k2, hk2⟩
    exact hj (Finset.mem_image.mpr ⟨k, Finset.mem_univ k, hk⟩)
  have step1 :
      (∑ x ∈ Finset.univ.image (nbr i),
        ∑ k2, if a_bool_B nbr i x k2 = true then Fij x k2 else 0)
      = ∑ k, ∑ k2, if a_bool_B nbr i (nbr i k) k2 = true
          then Fij (nbr i k) k2 else 0 :=
    Finset.sum_image fun x _ y _ hxy => h1 i hxy
  have step2 :
      (∑ x ∈ Finset.univ.image (nbr i),
        ∑ k2, if a_bool_B nbr i x k2 = true then Fij x k2 else 0)
      = ∑ j, ∑ k2, if a_bool_B nbr i j k2 = true then Fij j k2 else 0 :=
    Finset.sum_subset (Finset.subset_univ _) (fun j _ hj => h0 j hj)
  exact step1.symm.trans step2

/-- Cyclic 3-atom configuration: each row has a single slot (so no row can
contain a duplicate), but the relation is not reciprocal. -/
def nbrCyc : Fin 3 → Fin 1 → Fin 3 := ![![1], ![2], ![0]]

/-- Pairwise forces for `nbrCyc`: only atom 2's slot carries force. -/
def FijCyc : Fin 3 → Fin 1 → Vec3 := ![![0], ![0], ![(1, 0, 0)]]

/-- C1 counterexample: a no-duplicate input on which the two strategies
disagree. Atom 2 lists atom 0, but atom 0 does not list atom 2, so
Strategy A drops atom 2's contribution to atom 0's cross term while
Strategy B counts it. -/
theorem strategy_equiv_fails_on_nodup_input :
    NoDupRows nbrCyc ∧
      ¬ ∀ i, get_force_tensor true nbrCyc FijCyc i =
        get_force_tensor false nbrCyc FijCyc i := by
  constructor
  · decide
  · intro h
    have h0 := h 0
    norm_num [get_force_tensor, f_self, f_cross_A, f_cross_B, a_bool_A,
      a_bool_B, nbrCyc, FijCyc, Fin.sum_univ_succ, Prod.ext_iff] at h0

/-- C1 (amended): for inputs with no duplicate inside any neighbor row AND
fully reciprocal neighbor relations, Strategy A (`big_sys = True`) and
Strategy B (`big_sys = False`) return the same atomic-force tensor. -/
theorem strategyA_eq_strategyB_of_nodup_reciprocal
    (nbr : Fin N → Fin C → Fin N) (Fij : Fin N → Fin C → Vec3)
    (h1 : NoDupRows nbr) (h2 : Reciprocal nbr) (i : Fin N) :
    get_force_tensor true nbr Fij i = get_force_tensor false nbr Fij i := by
  simp [get_force_tensor, cross_eq_of_nodup_recip nbr Fij h1 h2 i]

/-- Mutual 2-atom configuration: each atom's single slot lists the other. -/
def nbrMutual : Fin 2 → Fin 1 → Fin 2 := ![![1], ![0]]

/-- Pairwise forces for `nbrMutual`. -/
def FijMutual : Fin 2 → Fin 1 → Vec3 := ![![(1, 2, 3)], ![(-1, -2, -3)]]

/-- Witness for the amended C1 theorem at a concrete reciprocal,
duplicate-free input. -/
theorem strategyA_eq_strategyB_witness :
    NoDupRows nbrMutual ∧ Reciprocal nbrMutual ∧
      get_force_tensor true nbrMutual FijMutual 0 =
        get_force_tensor false nbrMutual FijMutual 0 :=
  ⟨by decide, by decide,
    strategyA_eq_strategyB_of_nodup_reciprocal nbrMutual FijMutual
      (by decide) (by decide) 0⟩

/-- 3-atom configuration with duplicated rows: atom 0 lists atom 1 twice,
atom 1 lists atom 2 twice, atom 2 lists atom 0 twice. -/
def nbrDup : Fin 3 → Fin 2 → Fin 3 := ![![1, 1], ![2, 2], ![0, 0]]

/-- Pairwise forces for `nbrDup`: both of atom 2's slots carry force. -/
def FijDup : Fin 3 → Fin 2 → Vec3 := ![![0, 0], ![0, 0], ![(1, 0, 0), (1, 0, 0)]]

/-- C4: a concrete input whose neighbor rows contain duplicated target
indices, on which Strategy A (a total function — it cannot raise) silently
returns a cross term for atom 0 that undercounts Strategy B's exact cross
term: the contributions of atom 2's two slots are dropped. -/
theorem strategyA_undercounts_on_duplicates :
    (¬ NoDupRows nbrDup) ∧
      f_cross_A nbrDup FijDup 0 = 0 ∧
      f_cross_B nbrDup FijDup 0 = (2, 0, 0) ∧
      (f_cross_A nbrDup FijDup 0).1 < (f_cross_B nbrDup FijDup 0).1 := by
  refine ⟨by decide, ?_, ?_, ?_⟩ <;>
    norm_num [f_cross_A, f_cross_B, a_bool_A, a_bool_B, nbrDup, FijDup,
      Fin.sum_univ_succ, Prod.ext_iff]

/-- C2: For every input, Strategy B computes `f_cross[i]` as the sum over
every ordered pair `(i, j)` of `F_ij[j, k2]` over every slot `k2` with
`NeighborTable[j, k2] == i`; duplicate matching slots each contribute. -/
theorem crossB_sums_all_matching_slots (nbr : Fin N → Fin C → Fin N)
    (Fij : Fin N → Fin C → Vec3) (i : Fin N) :
    f_cross_B nbr Fij i =
      ∑ j, ∑ k2 ∈ Finset.univ.filter (fun k2 => nbr j k2 = i), Fij j k2 := by
  unfold f_cross_B a_bool_B
  refine Finset.sum_congr rfl fun j _ => ?_
  rw [Finset.sum_filter]
  refine Finset.sum_congr rfl fun k2 _ => ?_
  simp [decide_eq_true_eq]

/-- C3: For every input, Strategy A computes `f_cross[i]` as the sum over
slots `k` of `i`'s row of the masked sum over the row of `n = nbr i k`:
every slot `k2` of `n`'s row equal to `i` contributes `F_ij[n, k2]`. -/
theorem crossA_gathers_neighbor_rows (nbr : Fin N → Fin C → Fin N)
    (Fij : Fin N → Fin C → Vec3) (i : Fin N) :
    f_cross_A nbr Fij i =
      ∑ k, ∑ k2 ∈ Finset.univ.filter (fun k2 => nbr (nbr i k) k2 = i),
        Fij (nbr i k) k2 := by
  unfold f_cross_A a_bool_A
  refine Finset.sum_congr rfl fun k _ => ?_
  rw [Finset.sum_filter]
  refine Finset.sum_congr rfl fun k2 _ => ?_
  simp [decide_eq_true_eq]

/-- C5: Under both strategies the self term is `-Σ_k F_ij[i,k]` — the
returned force minus the strategy's cross term is the same either way —
and the returned atomic force is the self term plus the cross term. -/
theorem force_is_self_plus_cross (big_sys : Bool) (nbr : Fin N → Fin C → Fin N)
    (Fij : Fin N → Fin C → Vec3) (i : Fin N) :
    get_force_tensor big_sys nbr Fij i =
        (-(∑ k, Fij i k)) +
          (if big_sys then f_cross_A nbr Fij i else f_cross_B nbr Fij i) ∧
      get_force_tensor true nbr Fij i - f_cross_A nbr Fij i =
        get_force_tensor false nbr Fij i - f_cross_B nbr Fij i := by
  constructor
  · rfl
  · simp [get_force_tensor]

/-- Each per-slot contribution `F_ij[j,k2]` is received as a cross term by
exactly one atom, namely `nbr j k2`, so the exact (pair-exhaustive) cross
terms summed over all atoms rebuild the full tensor sum. -/
theorem sum_crossB_eq_total (nbr : Fin N → Fin C → Fin N)
    (Fij : Fin N → Fin C → Vec3) :
    ∑ i, f_cross_B nbr Fij i = ∑ j, ∑ k2, Fij j k2 := by
  unfold f_cross_B a_bool_B
  rw [Finset.sum_comm]
  refine Finset.sum_congr rfl fun j _ => ?_
  rw [Finset.sum_comm]
  refine Finset.sum_congr rfl fun k2 _ => ?_
  simp [decide_eq_true_eq, Finset.sum_ite_eq]

/-- C6: For a configuration with fully reciprocal neighbor relations (and
no padded slots: in this embedding every slot holds an atom index), the
atomic forces produced with the exact pair-exhaustive cross term sum to
zero over all atoms: each `F_ij[j,k2]` appears once negatively in a self
term and once positively in a cross term. -/
theorem total_force_zero_of_reciprocal (nbr : Fin N → Fin C → Fin N)
    (Fij : Fin N → Fin C → Vec3) (h : Reciprocal nbr) :
    ∑ i, get_force_tensor false nbr Fij i = 0 := by
  have hsplit : ∑ i, get_force_tensor false nbr Fij i =
      (∑ i, f_self Fij i) + ∑ i, f_cross_B nbr Fij i := by
    rw [← Finset.sum_add_distrib]
    refine Finset.sum_congr rfl fun i _ => ?_
    simp [get_force_tensor]
  rw [hsplit, sum_crossB_eq_total]
  simp [f_self, Finset.sum_neg_distrib]

/-- Witness for C6 at a concrete mutual two-atom configuration. -/
theorem total_force_zero_witness :
    Reciprocal nbrMutual ∧
      ∑ i, get_force_tensor false nbrMutual FijMutual i = 0 :=
  ⟨by decide,
    total_force_zero_of_reciprocal nbrMutual FijMutual (by decide)⟩

/-!
Species Batcher (`calculate`, lines 193–198 and 212–215 of the source).
Species labels are natural numbers (`types`). `np.unique` returns the
sorted distinct labels; `type_argsort` concatenates, species by species,
the atom indices carrying that label in increasing order; the scatter
`type_argsort_inv[type_argsort] = arange(len_atoms)` makes the inverse
send an atom to its position in `type_argsort`.
-/

/-- Sorted distinct species labels: `np.unique(types)`. -/
def type_unique (types : Fin N → ℕ) : List ℕ :=
  (Finset.univ.image types).sort (· ≤ ·)

/-- The species permutation as a list: for each species in sorted order,
the indices of the atoms of that species in increasing order
(`np.arange(len_atoms)[types == spec]`, accumulated over species). -/
def type_argsort (types : Fin N → ℕ) : List (Fin N) :=
  (type_unique types).flatMap fun s =>
    (List.finRange N).filter fun i => decide (types i = s)

theorem type_argsort_nodup (types : Fin N → ℕ) :
    (type_argsort types).Nodup := by
  rw [type_argsort, List.nodup_flatMap]
  constructor
  · exact fun s _ => (List.nodup_finRange N).filter _
  · refine ((Finset.univ.image types).sort_nodup (· ≤ ·)).imp ?_
    intro s t hst x hxs hxt
    simp only [List.mem_filter, decide_eq_true_eq] at hxs hxt
    exact hst (hxs.2 ▸ hxt.2)

theorem type_argsort_mem (types : Fin N → ℕ) (i : Fin N) :
    i ∈ type_argsort types := by
  rw [type_argsort, List.mem_flatMap]
  refine ⟨types i, ?_, ?_⟩
  · simp [type_unique, Finset.mem_sort]
  · simp [List.mem_filter, List.mem_finRange]

theorem type_argsort_length (types : Fin N → ℕ) :
    (type_argsort types).length = N := by
  rw [← List.toFinset_card_of_nodup (type_argsort_nodup types)]
  have huniv : (type_argsort types).toFinset = Finset.univ := by
    ext i
    simp [type_argsort_mem]
  rw [huniv, Finset.card_univ, Fintype.card_fin]

/-- The species permutation as a function: position `m` of the
concatenated per-species batches holds atom `type_argsort[m]`. -/
def permFun (types : Fin N → ℕ) (m : Fin N) : Fin N :=
  (type_argsort types).get (Fin.cast (type_argsort_length types).symm m)

/-- The inverse built by the scatter
`type_argsort_inv[type_argsort] = np.arange(len_atoms)`: atom `i` is sent
to its (unique) position in `type_argsort`. -/
def type_argsort_inv (types : Fin N → ℕ) (i : Fin N) : Fin N :=
  ⟨(type_argsort types).indexOf i,
    (List.indexOf_lt_length.2 (type_argsort_mem types i)).trans_eq
      (type_argsort_length types)⟩

/-- Applying the permutation after the inverse is the identity. -/
theorem permFun_type_argsort_inv (types : Fin N → ℕ) (i : Fin N) :
    permFun types (type_argsort_inv types i) = i :=
  List.indexOf_get _

/-- C7: the species permutation and the scatter-built inverse form a
bijection pair with `permutation[inverse[i]] == i` for every atom, so
gathering any per-atom array by the permutation and then by the inverse
reproduces the array exactly. -/
theorem species_perm_inverse_roundtrip (types : Fin N → ℕ) :
    (∀ i, permFun types (type_argsort_inv types i) = i) ∧
      Function.Bijective (permFun types) ∧
      ∀ (α : Type) (arr : Fin N → α) (i : Fin N),
        arr (permFun types (type_argsort_inv types i)) = arr i := by
  refine ⟨permFun_type_argsort_inv types, ?_, ?_⟩
  · exact Function.Surjective.bijective_of_finite
      fun i => ⟨type_argsort_inv types i, permFun_type_argsort_inv types i⟩
  · intro α arr i
    rw [permFun_type_argsort_inv types i]

/-!
Evaluator. The per-species sub-network outputs one scalar energy per atom
of its batch, as a function of that atom's fingerprint; composing it with
the fingerprint of each atom gives a per-atom energy map `eps`. The feed
in `calculate` batches atoms species by species, so the concatenated
network output at batch position `m` is `eps (permFun types m)`;
`np.concatenate(...)[type_argsort_inv]` then gathers it back by the
inverse permutation. The force graph `self.F` is built once in the
constructor from the chosen `big_sys` flag.
-/

/-- Results stored by `calculate` into `self.results`. -/
structure CalcResults (N : ℕ) where
  atomic_energies : Fin N → ℚ
  energy : ℚ
  forces : Fin N → Vec3

/-- The calculator state set up by `ss_calc.__init__`: the `big_sys` flag
and the force graph `self.F = self.get_force_tensor()` built from it. -/
structure SS_Calc (N C : ℕ) where
  big_sys : Bool
  F : (Fin N → Fin C → Fin N) → (Fin N → Fin C → Vec3) → Fin N → Vec3

/-- `ss_calc.__init__` with an explicit `big_sys` argument. -/
def ss_calc_init (N C : ℕ) (big_sys : Bool) : SS_Calc N C :=
  { big_sys := big_sys, F := get_force_tensor big_sys }

/-- The declared default of the `big_sys` keyword (`big_sys=True`). -/
def big_sys_default : Bool := true

/-- `ss_calc.__init__` when the caller omits `big_sys`. -/
def ss_calc_init_default (N C : ℕ) : SS_Calc N C :=
  ss_calc_init N C big_sys_default

/-- `ss_calc.calculate`: gathers the concatenated per-species energies
back into canonical order with the inverse permutation, sums them to the
total energy, and evaluates the stored force graph. -/
def calculate (c : SS_Calc N C) (types : Fin N → ℕ) (eps : Fin N → ℚ)
    (nbr : Fin N → Fin C → Fin N) (Fij : Fin N → Fin C → Vec3) :
    CalcResults N :=
  { atomic_energies := fun i => eps (permFun types (type_argsort_inv types i))
  , energy := ∑ i, eps (permFun types (type_argsort_inv types i))
  , forces := c.F nbr Fij }

/-- C8: `calculate` returns the per-atom energies in canonical atom order
(slot `i` holds atom `i`'s energy), the total energy as their sum, and the
forces as the aggregation engine's atomic-force tensor. -/
theorem calculate_returns_canonical_results (big_sys : Bool)
    (types : Fin N → ℕ) (eps : Fin N → ℚ) (nbr : Fin N → Fin C → Fin N)
    (Fij : Fin N → Fin C → Vec3) :
    (∀ i, (calculate (ss_calc_init N C big_sys) types eps nbr Fij).atomic_energies i
        = eps i) ∧
      (calculate (ss_calc_init N C big_sys) types eps nbr Fij).energy
        = ∑ i, (calculate (ss_calc_init N C big_sys) types eps nbr Fij).atomic_energies i ∧
      (calculate (ss_calc_init N C big_sys) types eps nbr Fij).forces
        = get_force_tensor big_sys nbr Fij := by
  refine ⟨fun i => ?_, rfl, rfl⟩
  simp [calculate, permFun_type_argsort_inv]

/-- The self term only reads the acting atom's own row, so it is
equivariant under a relabelling of the atoms. -/
theorem f_self_equivariant (sg : Equiv.Perm (Fin N))
    (Fij : Fin N → Fin C → Vec3) (i : Fin N) :
    f_self (fun a k => Fij (sg a) k) i = f_self Fij (sg i) := rfl

/-- Strategy A's cross term is equivariant under a relabelling of the
atoms (neighbor indices relabelled consistently). -/
theorem crossA_equivariant (sg : Equiv.Perm (Fin N))
    (nbr : Fin N → Fin C → Fin N) (Fij : Fin N → Fin C → Vec3) (i : Fin N) :
    f_cross_A (fun a k => sg.symm (nbr (sg a) k)) (fun a k => Fij (sg a) k) i
      = f_cross_A nbr Fij (sg i) := by
  unfold f_cross_A a_bool_A
  refine Finset.sum_congr rfl fun k _ => ?_
  refine Finset.sum_congr rfl fun k2 _ => ?_
  simp [Equiv.apply_symm_apply, Equiv.symm_apply_eq]

/-- Strategy B's cross term is equivariant under a relabelling of the
atoms (neighbor indices relabelled consistently). -/
theorem crossB_equivariant (sg : Equiv.Perm (Fin N))
    (nbr : Fin N → Fin C → Fin N) (Fij : Fin N → Fin C → Vec3) (i : Fin N) :
    f_cross_B (fun a k => sg.symm (nbr (sg a) k)) (fun a k => Fij (sg a) k) i
      = f_cross_B nbr Fij (sg i) := by
  unfold f_cross_B a_bool_B
  refine Fintype.sum_equiv sg _ _ fun j => ?_
  refine Finset.sum_congr rfl fun k2 _ => ?_
  simp [Equiv.symm_apply_eq]

/-- The full force tensor is equivariant under a relabelling of the atoms,
for either strategy. -/
theorem force_tensor_equivariant (big_sys : Bool) (sg : Equiv.Perm (Fin N))
    (nbr : Fin N → Fin C → Fin N) (Fij : Fin N → Fin C → Vec3) (i : Fin N) :
    get_force_tensor big_sys (fun a k => sg.symm (nbr (sg a) k))
        (fun a k => Fij (sg a) k) i
      = get_force_tensor big_sys nbr Fij (sg i) := by
  cases big_sys <;>
    simp [get_force_tensor, f_self_equivariant, crossA_equivariant,
      crossB_equivariant]

/-- C9: relabelling the atoms by a permutation `sg` (new atom `i` is old
atom `sg i`, neighbor indices relabelled consistently) leaves the returned
energy unchanged and permutes the returned atomic energies and forces by
the same permutation. -/
theorem calculate_order_invariant (big_sys : Bool) (types : Fin N → ℕ)
    (eps : Fin N → ℚ) (nbr : Fin N → Fin C → Fin N)
    (Fij : Fin N → Fin C → Vec3) (sg : Equiv.Perm (Fin N)) :
    (calculate (ss_calc_init N C big_sys) (fun a => types (sg a))
        (fun a => eps (sg a)) (fun a k => sg.symm (nbr (sg a) k))
        (fun a k => Fij (sg a) k)).energy
      = (calculate (ss_calc_init N C big_sys) types eps nbr Fij).energy ∧
    (∀ i, (calculate (ss_calc_init N C big_sys) (fun a => types (sg a))
        (fun a => eps (sg a)) (fun a k => sg.symm (nbr (sg a) k))
        (fun a k => Fij (sg a) k)).atomic_energies i
      = (calculate (ss_calc_init N C big_sys) types eps nbr Fij).atomic_energies
          (sg i)) ∧
    ∀ i, (calculate (ss_calc_init N C big_sys) (fun a => types (sg a))
        (fun a => eps (sg a)) (fun a k => sg.symm (nbr (sg a) k))
        (fun a k => Fij (sg a) k)).forces i
      = (calculate (ss_calc_init N C big_sys) types eps nbr Fij).forces (sg i) := by
  refine ⟨?_, fun i => ?_, fun i => ?_⟩
  · show (∑ i, (fun a => eps (sg a))
        (permFun (fun a => types (sg a))
          (type_argsort_inv (fun a => types (sg a)) i)))
      = ∑ i, eps (permFun types (type_argsort_inv types i))
    have hl : ∀ i, (fun a => eps (sg a))
        (permFun (fun a => types (sg a))
          (type_argsort_inv (fun a => types (sg a)) i)) = eps (sg i) := fun i => by
      rw [permFun_type_argsort_inv]
    have hr : ∀ i, eps (permFun types (type_argsort_inv types i)) = eps i :=
      fun i => by rw [permFun_type_argsort_inv]
    rw [Finset.sum_congr rfl fun i _ => hl i, Finset.sum_congr rfl fun i _ => hr i]
    exact Equiv.sum_comp sg eps
  · show (fun a => eps (sg a))
        (permFun (fun a => types (sg a))
          (type_argsort_inv (fun a => types (sg a)) i))
      = eps (permFun types (type_argsort_inv types (sg i)))
    rw [permFun_type_argsort_inv, permFun_type_argsort_inv]
  · exact force_tensor_equivariant big_sys sg nbr Fij i

/-- C10: a calculator constructed without an explicit `big_sys` argument
gets the declared default `big_sys = True`, so the force graph built at
construction is Strategy A's; the graph is fixed in the constructor and
every `calculate` call evaluates that same stored graph. -/
theorem default_big_sys_uses_strategyA :
    (ss_calc_init_default N C).big_sys = true ∧
      (ss_calc_init_default N C).F = get_force_tensor true ∧
      (∀ (nbr : Fin N → Fin C → Fin N) (Fij : Fin N → Fin C → Vec3) (i : Fin N),
        (ss_calc_init_default N C).F nbr Fij i
          = f_self Fij i + f_cross_A nbr Fij i) ∧
      ∀ (c : SS_Calc N C) (types : Fin N → ℕ) (eps : Fin N → ℚ)
        (nbr : Fin N → Fin C → Fin N) (Fij : Fin N → Fin C → Vec3),
        (calculate c types eps nbr Fij).forces = c.F nbr Fij :=
  ⟨rfl, rfl, fun _ _ _ => rfl, fun _ _ _ _ _ => rfl⟩

end PoleNet
